import Mathlib

/-!
# Verification of the BCH Stratum Inspector core

A shallow embedding of `bch_stratum_inspector.py` in Lean 4, together with
theorems settling the frozen claims about the program.

Modelling conventions:
* Python `bytes` values become `List Nat` (each element a byte value);
  Python strings of hex digits or text become `List Char` or codepoint lists.
* Machine integers are `Nat`/`Int`; struct packing/unpacking is explicit
  little-endian arithmetic.
* Python exceptions (`struct.error`, `IndexError`, `ValueError`) become
  `Option`/failure results: `none` models "the call raises".
* The byte cursor `self._pos` over the fixed buffer `self._data` is
  represented by the remaining suffix `self._data[self._pos:]`:
  `self._data[p:p+n]` is `(List.take n)` of the suffix and the advanced
  cursor yields the suffix `(List.drop n)`; `self._data[self._pos]`
  is the head of the suffix (raising `IndexError` exactly when the suffix
  is empty, i.e. when the cursor is at or past the end).
-/

set_option maxHeartbeats 1000000
set_option maxRecDepth 4000

/-! ## Byte and hex helpers -/

/-- `int.from_bytes(bs, 'little')`. -/
def leNat : List Nat → Nat
  | [] => 0
  | b :: bs => b + 256 * leNat bs

/-- `int.from_bytes(bs, 'big')`. -/
def beNat (bs : List Nat) : Nat := bs.foldl (fun a b => a * 256 + b) 0

/-- The `w` little-endian bytes of `n` (as produced by `struct.pack`). -/
def encodeLE : Nat → Nat → List Nat
  | 0, _ => []
  | w + 1, n => (n % 256) :: encodeLE w (n / 256)

/-- Value of one hex digit character, upper or lower case (as accepted by
`bytes.fromhex` / `int(_, 16)`). -/
def hexDigitVal? (c : Char) : Option Nat :=
  if '0' ≤ c ∧ c ≤ '9' then some (c.toNat - '0'.toNat)
  else if 'a' ≤ c ∧ c ≤ 'f' then some (c.toNat - 'a'.toNat + 10)
  else if 'A' ≤ c ∧ c ≤ 'F' then some (c.toNat - 'A'.toNat + 10)
  else none

/-- Lower-case hex digit for a value `< 16` (as produced by `bytes.hex()`). -/
def hexChar (n : Nat) : Char :=
  if n < 10 then Char.ofNat ('0'.toNat + n) else Char.ofNat ('a'.toNat + (n - 10))

/-- Two lower-case hex characters of one byte. -/
def byteToHex (b : Nat) : List Char := [hexChar (b / 16), hexChar (b % 16)]

/-- `bs.hex()`: lower-case hex rendering of a byte string. -/
def bytesToHex (bs : List Nat) : List Char := (bs.map byteToHex).flatten

/-- `bytes.fromhex`: pairs of hex digits to bytes; `none` models the
`ValueError` on a non-hex character or odd length.  (The whitespace
tolerance of CPython's `fromhex` is not modelled; no claim feeds it
whitespace.) -/
def hexToBytes? : List Char → Option (List Nat)
  | [] => some []
  | c1 :: c2 :: rest =>
    match hexDigitVal? c1, hexDigitVal? c2, hexToBytes? rest with
    | some h, some l, some bs => some ((16 * h + l) :: bs)
    | _, _, _ => none
  | _ => none

/-- `int(s, 16)` on a plain string of hex digits; `none` models the
`ValueError` on anything else.  (Python also accepts signs, underscores and
surrounding whitespace; the claims only feed plain 8-hex-digit strings.) -/
def pyIntHex? (s : List Char) : Option Nat :=
  if s = [] then none
  else s.foldl (fun acc c => match acc, hexDigitVal? c with
    | some a, some d => some (16 * a + d)
    | _, _ => none) (some 0)

/-! ## Difficulty codec: `nbits_to_difficulty` (source lines 377–391) -/

/-- Result of `nbits_to_difficulty`, modelling only what the claims need:
`na` is the `('N/A', 0.0)` return; `diff target` is the branch that divides
`_DIFF1_TARGET` by the (positive) `target` and formats the float — the
floating-point formatting itself is not modelled, but the integer `target`
that fully determines it is carried. -/
inductive DiffResult where
  | na : DiffResult
  | diff : Int → DiffResult
deriving DecidableEq

/-- `nbits_to_difficulty(nbits_hex)` from the source:
`nbits = int(nbits_hex, 16)`, `exp = nbits >> 24`,
`coeff = nbits & 0x007fffff` negated when `nbits & 0x00800000` is set,
`target = coeff * (1 << (8 * (exp - 3)))`.
`none` models the `ValueError` raised either by `int()` on a non-hex string
or by `1 << (8 * (exp - 3))` when `exp < 3` (negative shift count). -/
def nbits_to_difficulty (nbits_hex : List Char) : Option DiffResult :=
  match pyIntHex? nbits_hex with
  | none => none
  | some nbits =>
    let exp := nbits >>> 24
    let coeff0 : Int := (nbits &&& 0x007fffff : Nat)
    let coeff : Int := if nbits &&& 0x00800000 ≠ 0 then -coeff0 else coeff0
    if exp < 3 then none
    else
      let target : Int := coeff * 2 ^ (8 * (exp - 3))
      if target ≤ 0 then some .na else some (.diff target)

/-! ## Byte-order reorderer: `stratum_prevhash_to_blockchain` (source lines 303–318) -/

/-- `s[k:k+2]` on a character list. -/
def slice2 (s : List Char) (k : Nat) : List Char := (s.drop k).take 2

/-- One 4-byte group with its bytes reversed:
`''.join(prevhash_hex[i+j:i+j+2] for j in range(6, -1, -2))`. -/
def groupSwap (s : List Char) (i : Nat) : List Char :=
  slice2 s (i + 6) ++ slice2 s (i + 4) ++ slice2 s (i + 2) ++ slice2 s i

/-- `stratum_prevhash_to_blockchain(prevhash_hex)`: length check, per-group
byte swap over the eight 8-hex-char groups (`for i in range(0, 64, 8)`), then
reversal of the whole 32 bytes (`for j in range(62, -1, -2)`). -/
def stratum_prevhash_to_blockchain (prevhash_hex : String) : String :=
  if prevhash_hex.length ≠ 64 then prevhash_hex
  else
    let cs := prevhash_hex.data
    let internal := ((List.range 8).map (fun g => groupSwap cs (8 * g))).flatten
    ⟨((List.range 32).map (fun k => slice2 internal (62 - 2 * k))).flatten⟩

/-! ## Claim C3 — compact-target decoder -/

/-- Claim C3 as stated is false at input `"00800001"`: exponent byte 0,
sign bit set, coefficient −1, so the mathematical target is negative and the
claim requires the result `("N/A", 0.0)`; the code instead evaluates
`1 << (8 * (0 - 3))` and raises `ValueError: negative shift count`,
returning no result. -/
theorem C3_counterexample :
    nbits_to_difficulty ['0', '0', '8', '0', '0', '0', '0', '1'] = none := by decide

/-- Claim C3 amended: for every hex input that parses to `nbits`, with
exponent `e = nbits / 2^24`, coefficient `c = nbits % 2^23` negated when bit
23 of `nbits` is set: when `e ≥ 3` the decoder returns `("N/A", 0.0)` exactly
when `target = c * 2^(8*(e-3)) ≤ 0` and otherwise a result determined by the
positive `target`; but when `e < 3` it raises (negative shift count) instead
of returning a result. -/
theorem C3_amended (s : List Char) (n : Nat) (hparse : pyIntHex? s = some n) :
    (3 ≤ n / 2 ^ 24 →
      nbits_to_difficulty s =
        (if (if (n / 2 ^ 23) % 2 = 1 then -((n % 2 ^ 23 : Nat) : Int)
             else ((n % 2 ^ 23 : Nat) : Int)) * 2 ^ (8 * (n / 2 ^ 24 - 3)) ≤ 0
         then some DiffResult.na
         else some (DiffResult.diff
           ((if (n / 2 ^ 23) % 2 = 1 then -((n % 2 ^ 23 : Nat) : Int)
             else ((n % 2 ^ 23 : Nat) : Int)) * 2 ^ (8 * (n / 2 ^ 24 - 3)))))) ∧
    (n / 2 ^ 24 < 3 → nbits_to_difficulty s = none) := by
  have hshift : n >>> 24 = n / 2 ^ 24 := Nat.shiftRight_eq_div_pow n 24
  have hmask : n &&& 0x007fffff = n % 2 ^ 23 := Nat.and_pow_two_sub_one_eq_mod n 23
  have hbit : (n &&& 0x00800000 ≠ 0) ↔ ((n / 2 ^ 23) % 2 = 1) := by
    have h := Nat.and_two_pow n 23
    constructor
    · intro hne
      by_contra hmod
      have : n.testBit 23 = false := by
        simp [Nat.testBit_to_div_mod]
        omega
      rw [this] at h
      simp at h
      exact hne h
    · intro hmod
      have : n.testBit 23 = true := by
        simp [Nat.testBit_to_div_mod]
        omega
      rw [this] at h
      simp at h
      omega
  constructor
  · intro he
    unfold nbits_to_difficulty
    rw [hparse]
    simp only [hshift, hmask]
    rw [if_neg (by omega)]
    by_cases hb : (n / 2 ^ 23) % 2 = 1
    · rw [if_pos (hbit.mpr hb), if_pos hb]
    · rw [if_neg (fun hne => hb (hbit.mp hne)), if_neg hb]
  · intro he
    unfold nbits_to_difficulty
    rw [hparse]
    simp only [hshift]
    rw [if_pos (by omega)]

/-- Witness for `C3_amended` at the canonical difficulty-1 input
`"1d00ffff"` (exponent 0x1d = 29 ≥ 3, positive coefficient 0xffff). -/
theorem C3_amended_witness :
    pyIntHex? ['1', 'd', '0', '0', 'f', 'f', 'f', 'f'] = some 0x1d00ffff ∧
    (3 ≤ 0x1d00ffff / 2 ^ 24 →
      nbits_to_difficulty ['1', 'd', '0', '0', 'f', 'f', 'f', 'f'] =
        (if (if (0x1d00ffff / 2 ^ 23) % 2 = 1 then -((0x1d00ffff % 2 ^ 23 : Nat) : Int)
             else ((0x1d00ffff % 2 ^ 23 : Nat) : Int)) * 2 ^ (8 * (0x1d00ffff / 2 ^ 24 - 3)) ≤ 0
         then some DiffResult.na
         else some (DiffResult.diff
           ((if (0x1d00ffff / 2 ^ 23) % 2 = 1 then -((0x1d00ffff % 2 ^ 23 : Nat) : Int)
             else ((0x1d00ffff % 2 ^ 23 : Nat) : Int)) * 2 ^ (8 * (0x1d00ffff / 2 ^ 24 - 3)))))) ∧
    (0x1d00ffff / 2 ^ 24 < 3 → nbits_to_difficulty ['1', 'd', '0', '0', 'f', 'f', 'f', 'f'] = none) :=
  ⟨by decide, (C3_amended ['1', 'd', '0', '0', 'f', 'f', 'f', 'f'] 0x1d00ffff (by decide)).1,
    (C3_amended ['1', 'd', '0', '0', 'f', 'f', 'f', 'f'] 0x1d00ffff (by decide)).2⟩

/-! ## Claim C4 — byte-order reorderer -/

/-- Claim C4 as stated is false: on the wire-order input
`000102…1f` the reorderer does *not* return the fully byte-reversed string
`1f1e1d1c…00`.  (Reversing within each 4-byte group and then reversing the
whole hash reverses the *group order* while leaving each group's bytes in
place, so the actual output is `1c1d1e1f18191a1b…00010203`.) -/
theorem C4_counterexample :
    stratum_prevhash_to_blockchain
      "000102030405060708090a0b0c0d0e0f101112131415161718191a1b1c1d1e1f" ≠
      "1f1e1d1c1b1a191817161514131211100f0e0d0c0b0a09080706050403020100" := by decide

/-- Claim C4 amended: on the wire-order hash formed of the eight sequential
4-byte groups `00010203 … 1c1d1e1f` the reorderer returns the hex string with
the eight 4-byte groups in reversed order, each group's bytes kept in order
(`1c1d1e1f 18191a1b … 00010203`, the net effect of reversing each group and
then the whole hash); and any input whose length is not exactly 64
characters is returned unchanged. -/
theorem C4_amended :
    stratum_prevhash_to_blockchain
      "000102030405060708090a0b0c0d0e0f101112131415161718191a1b1c1d1e1f" =
      "1c1d1e1f18191a1b14151617101112130c0d0e0f08090a0b0405060700010203" ∧
    (∀ s : String, s.length ≠ 64 → stratum_prevhash_to_blockchain s = s) := by
  refine ⟨by decide, fun s hs => ?_⟩
  unfold stratum_prevhash_to_blockchain
  rw [if_pos hs]

/-- Witness for `C4_amended` applying the passthrough clause at `"abc"`. -/
theorem C4_amended_witness :
    ("abc" : String).length ≠ 64 ∧ stratum_prevhash_to_blockchain "abc" = "abc" :=
  ⟨by decide, C4_amended.2 "abc" (by decide)⟩

/-! ## Coinbase field decoders (source lines 219–248)

Text is modelled as a list of Unicode codepoints (`List Nat`). -/

/-- `parse_block_height(script_sig)` from the source: `None` when the script
is shorter than 2 bytes; otherwise with `h_len = script_sig[0]`, the
little-endian value of `script_sig[1:1+h_len]` provided `1 ≤ h_len ≤ 8` and
`len(script_sig) > h_len`, else `None`. -/
def parse_block_height (script_sig : List Nat) : Option Nat :=
  if script_sig.length < 2 then none
  else
    let h_len := script_sig.getD 0 0
    if 1 ≤ h_len ∧ h_len ≤ 8 ∧ h_len < script_sig.length then
      some (leNat ((script_sig.drop 1).take h_len))
    else none

/-- One UTF-8-encoded codepoint off the front of a byte string, with the
unconsumed rest; `none` on an invalid lead byte, a truncated or
non-continuation tail, an overlong encoding, a surrogate (0xD800–0xDFFF) or
a value above 0x10FFFF — the conditions under which Python's strict
`bytes.decode('utf-8')` raises. -/
def utf8DecodeOne? : List Nat → Option (Nat × List Nat)
  | [] => none
  | b1 :: rest =>
    if b1 < 0x80 then some (b1, rest)
    else if 0xc2 ≤ b1 ∧ b1 ≤ 0xdf then
      match rest with
      | b2 :: rest2 =>
        if 0x80 ≤ b2 ∧ b2 ≤ 0xbf then
          some ((b1 - 0xc0) * 0x40 + (b2 - 0x80), rest2)
        else none
      | _ => none
    else if 0xe0 ≤ b1 ∧ b1 ≤ 0xef then
      match rest with
      | b2 :: b3 :: rest2 =>
        if ((if b1 = 0xe0 then 0xa0 else 0x80) ≤ b2 ∧
            b2 ≤ (if b1 = 0xed then 0x9f else 0xbf)) ∧ (0x80 ≤ b3 ∧ b3 ≤ 0xbf) then
          some ((b1 - 0xe0) * 0x1000 + (b2 - 0x80) * 0x40 + (b3 - 0x80), rest2)
        else none
      | _ => none
    else if 0xf0 ≤ b1 ∧ b1 ≤ 0xf4 then
      match rest with
      | b2 :: b3 :: b4 :: rest2 =>
        if ((if b1 = 0xf0 then 0x90 else 0x80) ≤ b2 ∧
            b2 ≤ (if b1 = 0xf4 then 0x8f else 0xbf)) ∧
            (0x80 ≤ b3 ∧ b3 ≤ 0xbf) ∧ (0x80 ≤ b4 ∧ b4 ≤ 0xbf) then
          some ((b1 - 0xf0) * 0x40000 + (b2 - 0x80) * 0x1000 + (b3 - 0x80) * 0x40 + (b4 - 0x80),
            rest2)
        else none
      | _ => none
    else none

/-- Decode codepoints one at a time.  The fuel only bounds the recursion;
each step consumes at least one byte, so fuel ≥ length never runs out. -/
def utf8DecodeAux : Nat → List Nat → Option (List Nat)
  | _, [] => some []
  | 0, _ :: _ => none
  | fuel + 1, b :: rest =>
    match utf8DecodeOne? (b :: rest) with
    | none => none
    | some (c, rest2) => (utf8DecodeAux fuel rest2).map (c :: ·)

/-- Strict UTF-8 decoding of a byte string to codepoints, as performed by
Python's `bytes.decode('utf-8')`.  `none` models `UnicodeDecodeError`. -/
def utf8Decode? (bs : List Nat) : Option (List Nat) := utf8DecodeAux bs.length bs

/-- Python `str.isprintable()` on one codepoint.  Faithful through U+00FF
(C0/C1 controls, DEL and NBSP are not printable, the soft hyphen U+00AD is
not printable, all other Latin-1 characters are); above U+00FF printability
depends on the Unicode category table, supplied as the parameter
`printableHigh` — theorems quantify over it, so they hold for the real
table. -/
def pyPrintable (printableHigh : Nat → Bool) (c : Nat) : Bool :=
  if c < 0x20 then false
  else if c < 0x7f then true
  else if c ≤ 0xa0 then false
  else if c ≤ 0xff then c ≠ 0xad
  else printableHigh c

/-- Python `str.isspace()` / the character set stripped by `str.strip()` on
one codepoint.  Faithful through U+00FF (ASCII whitespace, the C0 separators
0x1C–0x1F, NEL and NBSP); above U+00FF it is the parameterized table
`spaceHigh`. -/
def pySpace (spaceHigh : Nat → Bool) (c : Nat) : Bool :=
  if c ≤ 0xff then c ∈ [9, 10, 11, 12, 13, 28, 29, 30, 31, 32, 0x85, 0xa0]
  else spaceHigh c

/-- Python `str.strip()`: remove leading and trailing whitespace. -/
def pyStrip (spaceHigh : Nat → Bool) (cs : List Nat) : List Nat :=
  ((cs.dropWhile (pySpace spaceHigh)).reverse.dropWhile (pySpace spaceHigh)).reverse

/-- `parse_coinbase_tag(script_sig)` from the source: `('', b'')` for scripts
shorter than 2 bytes or an empty remainder; otherwise the bytes after the
height push (`script_sig[1 + h_len:]`) are decoded as UTF-8 with a latin-1
fallback (latin-1 maps each byte to the equal codepoint and never fails),
characters that are neither printable nor a space are removed, and the
result is stripped of surrounding whitespace.  Returned together with the
untouched raw bytes.  `printableHigh`/`spaceHigh` supply the Unicode tables
above U+00FF (see `pyPrintable`/`pySpace`). -/
def parse_coinbase_tag (printableHigh spaceHigh : Nat → Bool) (script_sig : List Nat) :
    List Nat × List Nat :=
  if script_sig.length < 2 then ([], [])
  else
    let h_len := script_sig.getD 0 0
    let raw := script_sig.drop (1 + h_len)
    if raw = [] then ([], [])
    else
      let text := match utf8Decode? raw with
        | some cs => cs
        | none => raw
      let text2 := text.filter (fun c => pyPrintable printableHigh c || c = 32)
      (pyStrip spaceHigh text2, raw)

theorem utf8DecodeAux_ascii :
    ∀ (fuel : Nat) (l : List Nat), (∀ b ∈ l, b < 0x80) → l.length ≤ fuel →
      utf8DecodeAux fuel l = some l := by
  intro fuel
  induction fuel with
  | zero =>
    intro l hb hlen
    cases l with
    | nil => rfl
    | cons b rest => simp at hlen
  | succ n ih =>
    intro l hb hlen
    cases l with
    | nil => rfl
    | cons b rest =>
      have hb1 : b < 0x80 := hb b (List.mem_cons_self b rest)
      have hone : utf8DecodeOne? (b :: rest) = some (b, rest) := by
        unfold utf8DecodeOne?
        dsimp only
        rw [if_pos hb1]
      unfold utf8DecodeAux
      rw [hone]
      dsimp only
      rw [ih rest (fun x hx => hb x (List.mem_cons_of_mem b hx))
        (by simp at hlen; omega)]
      rfl

/-- UTF-8 decoding is the identity on pure-ASCII byte strings. -/
theorem utf8Decode_ascii (l : List Nat) (h : ∀ b ∈ l, b < 0x80) :
    utf8Decode? l = some l :=
  utf8DecodeAux_ascii l.length l h le_rfl

/-! ## Claim C8 — coinbase field extraction -/

/-- Claim C8 as stated is false: for the unlock script
`03 22 0c 0a 01` the remaining bytes after the height push are `[0x01]`,
whose UTF-8 decoding is the one-character string `"\x01"`, but the code
strips the non-printable control character and reports the empty tag text.
(The tables above U+00FF are irrelevant here and instantiated arbitrarily.) -/
theorem C8_counterexample :
    parse_coinbase_tag (fun _ => true) (fun _ => true) [0x03, 0x22, 0x0c, 0x0a, 0x01] =
      ([], [0x01]) ∧ utf8Decode? [0x01] = some [0x01] := by decide

/-- Characterization of `parse_block_height`: the little-endian height of
bytes `1..1+h` exactly when byte 0 holds `1 ≤ h ≤ 8` and enough bytes
follow, else absent. -/
theorem parse_block_height_eq (s : List Nat) : parse_block_height s =
    if 1 ≤ s.getD 0 0 ∧ s.getD 0 0 ≤ 8 ∧ s.getD 0 0 < s.length then
      some (leNat ((s.drop 1).take (s.getD 0 0)))
    else none := by
  unfold parse_block_height
  by_cases hl : s.length < 2
  · rw [if_pos hl, if_neg]
    rintro ⟨h1, _, h3⟩
    omega
  · rw [if_neg hl]

/-- Claim C8 amended: for every unlock script whose byte 0 is a push-length
`h` with `1 ≤ h ≤ 8` and with enough following bytes, the extractor reports
bytes `1..1+h` interpreted little-endian as the block height and otherwise
reports the height as absent; and the script `03 22 0c 0a` followed by tag
bytes reports height `0x0a0c22` and tag text equal to the UTF-8 decoding of
the remaining bytes *with non-printable characters removed and surrounding
whitespace trimmed* — in particular equal to the plain UTF-8 decoding
whenever the tag bytes are printable ASCII not starting or ending with a
space. -/
theorem C8_amended :
    (∀ s : List Nat, parse_block_height s =
      if 1 ≤ s.getD 0 0 ∧ s.getD 0 0 ≤ 8 ∧ s.getD 0 0 < s.length then
        some (leNat ((s.drop 1).take (s.getD 0 0)))
      else none) ∧
    (∀ (printableHigh spaceHigh : Nat → Bool) (tag : List Nat), tag ≠ [] →
      (∀ b ∈ tag, 32 ≤ b ∧ b ≤ 126) →
      tag.headD 0 ≠ 32 → (tag.getLast?.getD 0) ≠ 32 →
      parse_block_height ([0x03, 0x22, 0x0c, 0x0a] ++ tag) = some 0x0a0c22 ∧
      parse_coinbase_tag printableHigh spaceHigh ([0x03, 0x22, 0x0c, 0x0a] ++ tag) =
        (tag, tag)) := by
  refine ⟨parse_block_height_eq, ?_⟩
  intro pH sH tag hne hrange hhead hlast
  obtain ⟨a, t, rfl⟩ : ∃ a t, tag = a :: t := by
    cases tag with
    | nil => exact absurd rfl hne
    | cons a t => exact ⟨a, t, rfl⟩
  have hgetD : ([0x03, 0x22, 0x0c, 0x0a] ++ a :: t).getD 0 0 = 3 := rfl
  have hlen : ([0x03, 0x22, 0x0c, 0x0a] ++ a :: t).length = 5 + t.length := by
    simp [List.length_append]
    omega
  constructor
  · rw [parse_block_height_eq, if_pos (by rw [hgetD, hlen]; omega)]
    have htake : (([0x03, 0x22, 0x0c, 0x0a] ++ a :: t).drop 1).take
        (([0x03, 0x22, 0x0c, 0x0a] ++ a :: t).getD 0 0) = [0x22, 0x0c, 0x0a] := rfl
    rw [htake]
    rfl
  · unfold parse_coinbase_tag
    rw [if_neg (by omega)]
    have hdrop : ([0x03, 0x22, 0x0c, 0x0a] ++ a :: t).drop
        (1 + ([0x03, 0x22, 0x0c, 0x0a] ++ a :: t).getD 0 0) = a :: t := by rfl
    simp only [hdrop]
    rw [if_neg (by simp)]
    rw [utf8Decode_ascii (a :: t) (fun b hb => by have := hrange b hb; omega)]
    have hfilter : (a :: t).filter (fun c => pyPrintable pH c || c = 32) = a :: t := by
      rw [List.filter_eq_self]
      intro b hb
      have hr := hrange b hb
      by_cases hb32 : b = 32
      · simp [hb32]
      · have hp : pyPrintable pH b = true := by
          unfold pyPrintable
          rw [if_neg (show ¬b < 0x20 by omega)]
          rw [if_pos (show b < 0x7f by omega)]
        simp [hp]
    simp only [hfilter]
    have hspace : ∀ b, 32 ≤ b → b ≤ 126 → b ≠ 32 → pySpace sH b = false := by
      intro b h1 h2 h3
      unfold pySpace
      rw [if_pos (show b ≤ 0xff by omega)]
      rw [decide_eq_false_iff_not]
      intro hmem
      simp at hmem
      omega
    have hstrip : pyStrip sH (a :: t) = a :: t := by
      unfold pyStrip
      have ha := hrange a (by simp)
      have h1 : (a :: t).dropWhile (pySpace sH) = a :: t := by
        rw [List.dropWhile_cons,
          hspace a ha.1 ha.2 (by simpa using hhead)]
        simp
      rw [h1]
      rcases List.eq_nil_or_concat (a :: t) with h | ⟨L, b, hLb⟩
      · simp at h
      · rw [List.concat_eq_append] at hLb
        have hbmem : b ∈ a :: t := by rw [hLb]; simp
        have hb := hrange b hbmem
        have hb32 : b ≠ 32 := by
          intro heq
          apply hlast
          rw [hLb, List.getLast?_concat]
          simpa using heq
        rw [hLb, List.reverse_append]
        simp only [List.reverse_cons, List.reverse_nil, List.nil_append,
          List.singleton_append]
        rw [List.dropWhile_cons, hspace b hb.1 hb.2 hb32]
        simp
    rw [hstrip]

/-- Witness for `C8_amended` at the printable-ASCII tag `"/pool/"`
(bytes `2f 70 6f 6f 6c 2f`), with arbitrary high-codepoint tables. -/
theorem C8_amended_witness :
    ([47, 112, 111, 111, 108, 47] : List Nat) ≠ [] ∧
    (∀ b ∈ ([47, 112, 111, 111, 108, 47] : List Nat), 32 ≤ b ∧ b ≤ 126) ∧
    ([47, 112, 111, 111, 108, 47] : List Nat).headD 0 ≠ 32 ∧
    ([47, 112, 111, 111, 108, 47] : List Nat).getLast?.getD 0 ≠ 32 ∧
    parse_block_height ([0x03, 0x22, 0x0c, 0x0a] ++ [47, 112, 111, 111, 108, 47]) =
      some 0x0a0c22 ∧
    parse_coinbase_tag (fun _ => false) (fun _ => false)
      ([0x03, 0x22, 0x0c, 0x0a] ++ [47, 112, 111, 111, 108, 47]) =
      ([47, 112, 111, 111, 108, 47], [47, 112, 111, 111, 108, 47]) :=
  ⟨by decide, by decide, by decide, by decide,
    (C8_amended.2 (fun _ => false) (fun _ => false) [47, 112, 111, 111, 108, 47]
      (by decide) (by decide) (by decide) (by decide)).1,
    (C8_amended.2 (fun _ => false) (fun _ => false) [47, 112, 111, 111, 108, 47]
      (by decide) (by decide) (by decide) (by decide)).2⟩

/-! ## Claim C10 — totality of the coinbase field extractors

In the embedding, totality is witnessed by `parse_block_height` and
`parse_coinbase_tag` being plain functions into `Option Nat` (heights are
non-negative by type) and a pair of byte/codepoint lists: every Python
operation they perform is non-raising (the index `script_sig[0]` is guarded
by the length check, slices never raise, and the latin-1 fallback decodes
every byte string). -/

/-- Claim C10: on every byte sequence the height extractor returns either a
(non-negative) height or absent and the tag extractor returns a (text, raw)
pair; any script shorter than 2 bytes yields an absent height and an empty
tag. -/
theorem C10_total :
    ∀ (printableHigh spaceHigh : Nat → Bool) (s : List Nat),
      (parse_block_height s = none ∨ ∃ n : Nat, parse_block_height s = some n) ∧
      (∃ p : List Nat × List Nat, parse_coinbase_tag printableHigh spaceHigh s = p) ∧
      (s.length < 2 → parse_block_height s = none ∧
        parse_coinbase_tag printableHigh spaceHigh s = ([], [])) := by
  intro pH sH s
  refine ⟨?_, ⟨_, rfl⟩, fun hl => ⟨?_, ?_⟩⟩
  · cases h : parse_block_height s with
    | none => exact Or.inl rfl
    | some n => exact Or.inr ⟨n, rfl⟩
  · unfold parse_block_height
    rw [if_pos hl]
  · unfold parse_coinbase_tag
    rw [if_pos hl]

/-- Witness for `C10_total` at the one-byte script `[0x05]`. -/
theorem C10_total_witness :
    (([0x05] : List Nat).length < 2) ∧ parse_block_height [0x05] = none ∧
    parse_coinbase_tag (fun _ => false) (fun _ => false) [0x05] = ([], []) :=
  ⟨by decide,
    ((C10_total (fun _ => false) (fun _ => false) [0x05]).2.2 (by decide)).1,
    ((C10_total (fun _ => false) (fun _ => false) [0x05]).2.2 (by decide)).2⟩

/-! ## Claim C9 — coinbase assembly (source line 477)

`coinbase_hex = cb1 + extranonce1 + ('00' * extranonce2_size) + cb2`, then
`CoinbaseTxParser(coinbase_hex)` converts the hex to bytes with
`bytes.fromhex` before decoding. -/

/-- The assembled coinbase hex string handed to the transaction decoder. -/
def assemble_coinbase_hex (cb1 extranonce1 : List Char) (extranonce2_size : Nat)
    (cb2 : List Char) : List Char :=
  cb1 ++ extranonce1 ++ (List.replicate extranonce2_size ['0', '0']).flatten ++ cb2

theorem hexToBytes_append (ys : List Char) :
    ∀ (fuel : Nat) (xs : List Char) (bxs : List Nat), xs.length ≤ fuel →
      hexToBytes? xs = some bxs →
      hexToBytes? (xs ++ ys) = (hexToBytes? ys).map (fun b => bxs ++ b) := by
  intro fuel
  induction fuel with
  | zero =>
    intro xs bxs hlen hxs
    cases xs with
    | nil =>
      cases hxs
      simp [hexToBytes?]
    | cons c rest => simp at hlen
  | succ n ih =>
    intro xs bxs hlen hxs
    match xs, hxs with
    | [], hxs =>
      cases hxs
      simp [hexToBytes?]
    | [c], hxs => simp [hexToBytes?] at hxs
    | c1 :: c2 :: rest, hxs =>
      rw [hexToBytes?] at hxs
      rw [List.cons_append, List.cons_append, hexToBytes?]
      cases hd1 : hexDigitVal? c1 with
      | none => rw [hd1] at hxs; simp at hxs
      | some d1 =>
        cases hd2 : hexDigitVal? c2 with
        | none => rw [hd1, hd2] at hxs; simp at hxs
        | some d2 =>
          rw [hd1, hd2] at hxs
          cases hrest : hexToBytes? rest with
          | none => rw [hrest] at hxs; simp at hxs
          | some brest =>
            rw [hrest] at hxs
            simp at hxs
            rw [ih rest brest (by simp at hlen; omega) hrest]
            cases hexToBytes? ys <;> simp [← hxs]

/-- `bytes.fromhex('00' * n)` is `n` zero bytes. -/
theorem hexToBytes_zeros (n : Nat) :
    hexToBytes? (List.replicate n ['0', '0']).flatten = some (List.replicate n 0) := by
  induction n with
  | zero => rfl
  | succ k ih =>
    rw [List.replicate_succ, List.flatten_cons, List.replicate_succ]
    show hexToBytes? ('0' :: '0' :: (List.replicate k ['0', '0']).flatten) = _
    rw [hexToBytes?, ih]
    rfl

/-- Claim C9: the coinbase bytes handed to the transaction decoder — the
`bytes.fromhex` of the assembled hex string — are exactly
`coinbase_part1 ++ extra_nonce1 ++ (zero bytes of length extra_nonce2_size)
++ coinbase_part2`, whenever the three hex fragments are valid hex. -/
theorem C9_assembly (cb1 en1 cb2 : List Char) (n : Nat) (b1 b2 b3 : List Nat)
    (h1 : hexToBytes? cb1 = some b1) (h2 : hexToBytes? en1 = some b2)
    (h3 : hexToBytes? cb2 = some b3) :
    hexToBytes? (assemble_coinbase_hex cb1 en1 n cb2) =
      some (b1 ++ b2 ++ List.replicate n 0 ++ b3) := by
  unfold assemble_coinbase_hex
  rw [List.append_assoc, List.append_assoc]
  rw [hexToBytes_append _ cb1.length cb1 b1 le_rfl h1,
    hexToBytes_append _ en1.length en1 b2 le_rfl h2,
    hexToBytes_append _ ((List.replicate n ['0', '0']).flatten).length
      (List.replicate n ['0', '0']).flatten (List.replicate n 0) le_rfl (hexToBytes_zeros n),
    h3]
  simp [List.append_assoc]

/-- Witness for `C9_assembly` at `cb1 = "01"`, `en1 = "ab"`,
`extra_nonce2_size = 2`, `cb2 = "ff"`. -/
theorem C9_assembly_witness :
    hexToBytes? ['0', '1'] = some [0x01] ∧ hexToBytes? ['a', 'b'] = some [0xab] ∧
    hexToBytes? ['f', 'f'] = some [0xff] ∧
    hexToBytes? (assemble_coinbase_hex ['0', '1'] ['a', 'b'] 2 ['f', 'f']) =
      some ([0x01] ++ [0xab] ++ List.replicate 2 0 ++ [0xff]) :=
  ⟨by decide, by decide, by decide,
    C9_assembly ['0', '1'] ['a', 'b'] ['f', 'f'] 2 [0x01] [0xab] [0xff]
      (by decide) (by decide) (by decide)⟩

/-! ## Stratum session polling loop (source lines 436–467)

The `for attempt in range(15)` loop of `query_pool` repeatedly calls
`_stratum_recv`, which returns a (possibly empty) batch of frames; the
session is modelled against a scripted sequence of such batches (an
exhausted script yields empty batches, like a receive timeout).  Each frame
is dispatched exactly as the source does on `method` / `id`. -/

/-- One inbound Stratum frame: a `mining.notify` notification (its params
abstracted to an identifying `Nat` payload), a `mining.set_difficulty`
notification carrying `params[0]`, the response to the authorize request
(`id == 2`) with `res = true` iff Python's `r.get('result') is True`, or
any other frame, which the loop ignores. -/
inductive Frame where
  | notify (job : Nat)
  | setDifficulty (d : Int)
  | authResponse (res : Bool)
  | other
deriving DecidableEq

/-- The loop's mutable state: `notify` (the saved job), `pool_diff` and the
`auth_rejected` flag. -/
structure PollState where
  notify : Option Nat
  pool_diff : Option Int
  auth_rejected : Bool
deriving DecidableEq

/-- Processing of one frame by the inner `for r in responses` loop. -/
def procFrame (s : PollState) (f : Frame) : PollState :=
  match f with
  | .notify j => { s with notify := some j }
  | .setDifficulty d => { s with pool_diff := some d }
  | .authResponse res => if res then s else { s with auth_rejected := true }
  | .other => s

/-- Processing of one received batch. -/
def procBatch (s : PollState) (batch : List Frame) : PollState :=
  batch.foldl procFrame s

/-- The polling loop: up to `fuel` receive attempts, breaking as soon as a
batch leaves `notify` set or `auth_rejected` raised
(`if notify or auth_rejected: break`). -/
def pollGo : Nat → PollState → List (List Frame) → PollState
  | 0, s, _ => s
  | fuel + 1, s, batches =>
    let s' := procBatch s (batches.headD [])
    if s'.notify.isSome || s'.auth_rejected then s'
    else pollGo fuel s' batches.tail

/-- How the session ends after the polling loop: `rejected` is the
`auth_rejected and not notify` failure, `timeout` the `not notify` failure,
and `job j` proceeds to decode the saved notification. -/
inductive PollOutcome where
  | rejected
  | timeout
  | job (j : Nat)
deriving DecidableEq

/-- The polling phase of `query_pool` against a scripted batch sequence:
15 attempts, then `if auth_rejected and not notify` fail as rejected,
`if not notify` fail as timeout, else decode the job. -/
def query_pool_poll (batches : List (List Frame)) : PollOutcome :=
  let s := pollGo 15 ⟨none, none, false⟩ batches
  if s.auth_rejected = true ∧ s.notify = none then .rejected
  else match s.notify with
    | none => .timeout
    | some j => .job j

/-- Does a batch contain a job notification? -/
def hasNotify (b : List Frame) : Bool :=
  b.any fun f => match f with | .notify _ => true | _ => false

/-- Does a batch contain an authorize rejection? -/
def hasReject (b : List Frame) : Bool :=
  b.any fun f => match f with | .authResponse res => !res | _ => false

theorem procBatch_notify_none : ∀ (b : List Frame) (s : PollState),
    ((procBatch s b).notify = none ↔ (s.notify = none ∧ hasNotify b = false)) := by
  intro b
  induction b with
  | nil => intro s; simp [procBatch, hasNotify]
  | cons f b' ih =>
    intro s
    show ((procBatch (procFrame s f) b').notify = none ↔ _)
    rw [ih]
    cases f with
    | notify j => simp [procFrame, hasNotify]
    | setDifficulty d => simp [procFrame, hasNotify]
    | authResponse res =>
      cases res <;> simp [procFrame, hasNotify]
    | other => simp [procFrame, hasNotify]

theorem procBatch_rejected : ∀ (b : List Frame) (s : PollState),
    (procBatch s b).auth_rejected = (s.auth_rejected || hasReject b) := by
  intro b
  induction b with
  | nil => intro s; simp [procBatch, hasReject]
  | cons f b' ih =>
    intro s
    show (procBatch (procFrame s f) b').auth_rejected = _
    rw [ih]
    cases f with
    | notify j => simp [procFrame, hasReject]
    | setDifficulty d => simp [procFrame, hasReject]
    | authResponse res =>
      cases res <;> simp [procFrame, hasReject]
    | other => simp [procFrame, hasReject]

theorem getD_tail (l : List (List Frame)) (i : Nat) :
    l.tail.getD i [] = l.getD (i + 1) [] := by
  cases l with
  | nil => simp [List.getD]
  | cons hb tb => simp [List.getD]

theorem headD_getD (l : List (List Frame)) : l.headD [] = l.getD 0 [] := by
  cases l <;> simp [List.getD]

theorem pollGo_rejected_iff :
    ∀ (fuel : Nat) (batches : List (List Frame)) (s : PollState),
      s.notify = none → s.auth_rejected = false →
      (((pollGo fuel s batches).auth_rejected = true ∧
          (pollGo fuel s batches).notify = none) ↔
        ∃ i : Nat, i < fuel ∧ hasReject (batches.getD i []) = true ∧
          (∀ k : Nat, k ≤ i → hasNotify (batches.getD k []) = false) ∧
          (∀ k : Nat, k < i → hasReject (batches.getD k []) = false)) := by
  intro fuel
  induction fuel with
  | zero =>
    intro batches s hn hr
    show ((s.auth_rejected = true ∧ s.notify = none) ↔ _)
    constructor
    · rintro ⟨h1, _⟩
      rw [hr] at h1
      cases h1
    · rintro ⟨i, hi, _⟩
      omega
  | succ fuel ih =>
    intro batches s hn hr
    have hunf : pollGo (fuel + 1) s batches =
        (if (procBatch s (batches.headD [])).notify.isSome ||
            (procBatch s (batches.headD [])).auth_rejected
         then procBatch s (batches.headD [])
         else pollGo fuel (procBatch s (batches.headD [])) batches.tail) := rfl
    rw [hunf]
    have hn' : (procBatch s (batches.headD [])).notify = none ↔
        hasNotify (batches.headD []) = false := by
      rw [procBatch_notify_none]
      simp [hn]
    have hr' : (procBatch s (batches.headD [])).auth_rejected =
        hasReject (batches.headD []) := by
      rw [procBatch_rejected, hr]
      simp
    by_cases hN : hasNotify (batches.headD []) = true
    · have hsome : (procBatch s (batches.headD [])).notify ≠ none := by
        intro h
        rw [hn'.mp h] at hN
        cases hN
      rw [if_pos (by
        simp only [Bool.or_eq_true, Option.isSome_iff_ne_none]
        exact Or.inl hsome)]
      constructor
      · rintro ⟨_, h2⟩
        exact absurd h2 hsome
      · rintro ⟨i, _, _, hNt, _⟩
        have h0 := hNt 0 (Nat.zero_le i)
        rw [← headD_getD] at h0
        rw [h0] at hN
        cases hN
    · have hNf : hasNotify (batches.headD []) = false := by
        cases h : hasNotify (batches.headD []) with
        | false => rfl
        | true => exact absurd h hN
      have hnone : (procBatch s (batches.headD [])).notify = none := hn'.mpr hNf
      by_cases hR : hasReject (batches.headD []) = true
      · rw [if_pos (by rw [hr', hR]; simp)]
        constructor
        · intro _
          refine ⟨0, by omega, by rwa [← headD_getD], ?_, ?_⟩
          · intro k hk
            have : k = 0 := by omega
            rw [this, ← headD_getD]
            exact hNf
          · intro k hk
            omega
        · intro _
          exact ⟨by rw [hr']; exact hR, hnone⟩
      · have hRf : hasReject (batches.headD []) = false := by
          cases h : hasReject (batches.headD []) with
          | false => rfl
          | true => exact absurd h hR
        rw [if_neg (by rw [hr', hRf, hnone]; simp)]
        rw [ih batches.tail (procBatch s (batches.headD [])) hnone (by rw [hr', hRf])]
        constructor
        · rintro ⟨i, hi, hRj, hNt, hRj'⟩
          refine ⟨i + 1, by omega, by rwa [getD_tail] at hRj, ?_, ?_⟩
          · intro k hk
            cases k with
            | zero => rw [← headD_getD]; exact hNf
            | succ k' =>
              rw [← getD_tail]
              exact hNt k' (by omega)
          · intro k hk
            cases k with
            | zero => rw [← headD_getD]; exact hRf
            | succ k' =>
              rw [← getD_tail]
              exact hRj' k' (by omega)
        · rintro ⟨i, hi, hRj, hNt, hRj'⟩
          cases i with
          | zero =>
            rw [← headD_getD] at hRj
            rw [hRj] at hRf
            cases hRf
          | succ i' =>
            refine ⟨i', by omega, by rwa [getD_tail], ?_, ?_⟩
            · intro k hk
              rw [getD_tail]
              exact hNt (k + 1) (by omega)
            · intro k hk
              rw [getD_tail]
              exact hRj' (k + 1) (by omega)

/-! ## Claim C5 — polling-loop temporal behaviour -/

/-- Claim C5 as stated is false: with an authorize rejection in the first
polling batch and a job notification only in the second, the rejection
arrives before any job notification and the job notification arrives after
the rejection, so the claim requires both the Failed (rejected) state and
acceptance of the job.  The code breaks out of the loop as soon as the
rejection's batch is processed and never sees the later notification:
the session ends rejected and the job is not accepted. -/
theorem C5_counterexample :
    query_pool_poll [[Frame.authResponse false], [Frame.notify 0]] =
      PollOutcome.rejected := by decide

/-- Claim C5 amended: the session ends in the Failed (rejected) state
exactly when some batch among the 15 polling attempts contains an authorize
rejection while neither it nor any earlier batch contains a job
notification (and no earlier batch contains a rejection — i.e. at the first
rejection, no notification has arrived yet).  In particular a job
notification in the same batch as the rejection (either order) is still
accepted, while one that only arrives in a later batch is never seen. -/
theorem C5_amended (batches : List (List Frame)) :
    query_pool_poll batches = PollOutcome.rejected ↔
      ∃ i : Nat, i < 15 ∧ hasReject (batches.getD i []) = true ∧
        (∀ k : Nat, k ≤ i → hasNotify (batches.getD k []) = false) ∧
        (∀ k : Nat, k < i → hasReject (batches.getD k []) = false) := by
  rw [← pollGo_rejected_iff 15 batches ⟨none, none, false⟩ rfl rfl]
  unfold query_pool_poll
  by_cases h : (pollGo 15 ⟨none, none, false⟩ batches).auth_rejected = true ∧
      (pollGo 15 ⟨none, none, false⟩ batches).notify = none
  · rw [if_pos h]
    simp [h]
  · rw [if_neg h]
    constructor
    · intro hres
      cases hmatch : (pollGo 15 ⟨none, none, false⟩ batches).notify with
      | none => rw [hmatch] at hres; cases hres
      | some j => rw [hmatch] at hres; cases hres
    · intro hcontra
      exact absurd hcontra h

/-- Witness for `C5_amended`: a lone authorize rejection in the first batch
ends the session rejected. -/
theorem C5_amended_witness :
    query_pool_poll [[Frame.authResponse false]] = PollOutcome.rejected :=
  (C5_amended [[Frame.authResponse false]]).mpr
    ⟨0, by decide, by decide, by decide, by decide⟩

/-! ## Address encoding — CashAddr (source lines 73–116)

The SHA-256 and RIPEMD-160 hash primitives used by the Base58Check checksum
and the P2PK branch are external to the program (`hashlib`); they enter the
embedding as function parameters, so every theorem below holds for the real
hash functions. -/

def _CASHADDR_CHARSET : List Char := "qpzry9x8gf2tvdw0s3jn54khce6mua7l".data

/-- One step of the `for d in values` loop of `_cashaddr_polymod`:
`c0 = c >> 35`, `c = ((c & 0x07ffffffff) << 5) ^ d`, then one conditional
xor per generator constant (`if c0 & 0x01: ...` tests Python truthiness,
i.e. nonzero). -/
def polymodStep (c d : Nat) : Nat :=
  let c0 := c >>> 35
  let c1 := ((c &&& 0x07ffffffff) <<< 5) ^^^ d
  let c2 := if c0 &&& 0x01 ≠ 0 then c1 ^^^ 0x98f2bc8e61 else c1
  let c3 := if c0 &&& 0x02 ≠ 0 then c2 ^^^ 0x79b76d99e2 else c2
  let c4 := if c0 &&& 0x04 ≠ 0 then c3 ^^^ 0xf33e5fb3c4 else c3
  let c5 := if c0 &&& 0x08 ≠ 0 then c4 ^^^ 0xae2eabe2a8 else c4
  if c0 &&& 0x10 ≠ 0 then c5 ^^^ 0x1e4f43e470 else c5

/-- `_cashaddr_polymod(values)`: fold `polymodStep` from `c = 1`, return
`c ^ 1`. -/
def _cashaddr_polymod (values : List Nat) : Nat :=
  (values.foldl polymodStep 1) ^^^ 1

/-- `_cashaddr_hrp_expand(prefix)`: `[ord(c) & 0x1f for c in prefix] + [0]`. -/
def _cashaddr_hrp_expand (pre : List Char) : List Nat :=
  pre.map (fun ch => ch.toNat &&& 0x1f) ++ [0]

/-- The inner `while bits >= to_bits` loop of `_convert_bits`: decrement
`bits` by `to_bits` and append `(acc >> bits) & maxv`.  The fuel only
bounds the iteration count (each pass removes `to_bits ≥ 1` from `bits`,
so `fuel = bits` never runs out); the `0 < toBits` guard reflects that the
source never calls this with `to_bits = 0` (it would not terminate). -/
def convertEmit (toBits maxv acc : Nat) : Nat → Nat → List Nat → Nat × List Nat
  | 0, bits, ret => (bits, ret)
  | fuel + 1, bits, ret =>
    if toBits ≤ bits ∧ 0 < toBits then
      convertEmit toBits maxv acc fuel (bits - toBits)
        (ret ++ [(acc >>> (bits - toBits)) &&& maxv])
    else (bits, ret)

/-- `_convert_bits(data, from_bits, to_bits, pad=True)`: regroup
`from_bits`-bit units into `to_bits`-bit units, most significant bit first,
with the state `(acc, bits, ret)` threaded through the `for value in data`
loop, and optional zero-padding of the final incomplete group. -/
def _convert_bits (data : List Nat) (fromBits toBits : Nat) (pad : Bool := true) :
    List Nat :=
  let maxv := (1 <<< toBits) - 1
  let st := data.foldl (fun (st : Nat × Nat × List Nat) value =>
    let acc := (st.1 <<< fromBits) ||| value
    let bits := st.2.1 + fromBits
    let br := convertEmit toBits maxv acc bits bits st.2.2
    (acc, br.1, br.2)) (0, 0, [])
  if pad ∧ st.2.1 ≠ 0 then
    st.2.2 ++ [(st.1 <<< (toBits - st.2.1)) &&& maxv]
  else st.2.2

/-- `hash160_to_cashaddr(hash160, script_type='P2PKH')`: version byte 0x00
for P2PKH else 0x08, payload = 8→5-bit repack of version byte and hash,
checksum = 8 5-bit windows of the polymod over hrp-expansion ++ payload ++
8 zero digits, most significant window first (`>> 5 * (7 - i)`), output
`prefix:payload-digits checksum-digits` through the 32-character alphabet.
(The alphabet lookup's out-of-range default is never hit: every digit is
masked to 5 bits.) -/
def hash160_to_cashaddr (hash160 : List Nat) (script_type : String := "P2PKH") :
    String :=
  let pre := "bitcoincash"
  let version_byte := if script_type = "P2PKH" then 0x00 else 0x08
  let payload := _convert_bits (version_byte :: hash160) 8 5
  let values := _cashaddr_hrp_expand pre.data ++ payload ++ List.replicate 8 0
  let checksum := (List.range 8).map
    (fun i => (_cashaddr_polymod values >>> (5 * (7 - i))) &&& 0x1f)
  ⟨pre.data ++ ':' :: (payload ++ checksum).map (fun d => _CASHADDR_CHARSET.getD d ' ')⟩

/-! ## Address encoding — Base58Check (source lines 123–147) -/

def _BASE58_ALPHABET : List Char :=
  "123456789ABCDEFGHJKLMNPQRSTUVWXYZabcdefghijkmnopqrstuvwxyz".data

/-- The `while n > 0` digit loop of `_base58check_encode`, prepending
`alphabet[n % 58]` and continuing with `n // 58`.  Fuel bounds the
iteration count (`n // 58 < n` for `n > 0`, so `fuel = n` never runs
out). -/
def base58Aux : Nat → Nat → List Char → List Char
  | 0, _, result => result
  | fuel + 1, n, result =>
    if n = 0 then result
    else base58Aux fuel (n / 58) (_BASE58_ALPHABET.getD (n % 58) ' ' :: result)

/-- The `for byte in data` loop preserving leading zero bytes as '1'
characters, stopping at the first nonzero byte. -/
def base58LeadingOnes : List Nat → List Char → List Char
  | [], result => result
  | b :: bs, result => if b = 0 then base58LeadingOnes bs ('1' :: result) else result

/-- `_base58check_encode(payload)`: append the first 4 bytes of the double
SHA-256 of the payload, read the whole as a big-endian integer, emit base-58
digits, then one '1' per leading zero byte. -/
def _base58check_encode (sha256 : List Nat → List Nat) (payload : List Nat) :
    List Char :=
  let checksum := (sha256 (sha256 payload)).take 4
  let data := payload ++ checksum
  let n := beNat data
  base58LeadingOnes data (base58Aux n n [])

/-- `hash160_to_legacy(hash160, script_type='P2PKH')`: version byte 0x00 for
P2PKH else 0x05, then Base58Check. -/
def hash160_to_legacy (sha256 : List Nat → List Nat) (hash160 : List Nat)
    (script_type : String := "P2PKH") : String :=
  let version := if script_type = "P2PKH" then [0x00] else [0x05]
  ⟨_base58check_encode sha256 (version ++ hash160)⟩

/-! ## Script classifier: `parse_script_pubkey` (source lines 251–296) -/

/-- `parse_script_pubkey(script)`: `(script_type, address_dict_or_None,
extra_hex)`, pattern-matched in source order: empty, P2PKH (25 bytes,
`76 a9 14 … 88 ac`), P2SH (23 bytes, `a9 14 … 87`), OP_RETURN (first byte
`6a`), P2PK (last byte `ac`, length 35 or 67, first byte = length − 2,
hash160 = RIPEMD-160 of SHA-256 of the enclosed pubkey), else UNKNOWN.
Slice comparisons (`script[:3] == b'\x76\xa9\x14'` etc.) are
`take`/`drop` equalities with identical semantics on short inputs. -/
def parse_script_pubkey (sha256 ripemd160 : List Nat → List Nat)
    (script : List Nat) : String × Option (String × String) × String :=
  if script = [] then ("EMPTY", none, "")
  else if script.length = 25 ∧ script.take 3 = [0x76, 0xa9, 0x14] ∧
      script.drop 23 = [0x88, 0xac] then
    let h160 := (script.drop 3).take 20
    ("P2PKH", some (hash160_to_cashaddr h160 "P2PKH",
      hash160_to_legacy sha256 h160 "P2PKH"), ⟨bytesToHex h160⟩)
  else if script.length = 23 ∧ script.take 2 = [0xa9, 0x14] ∧
      script.getD 22 0 = 0x87 then
    let h160 := (script.drop 2).take 20
    ("P2SH", some (hash160_to_cashaddr h160 "P2SH",
      hash160_to_legacy sha256 h160 "P2SH"), ⟨bytesToHex h160⟩)
  else if script.getD 0 0 = 0x6a then
    ("OP_RETURN", none, ⟨bytesToHex (script.drop 1)⟩)
  else if script.getLast?.getD 0 = 0xac ∧ (script.length = 35 ∨ script.length = 67) ∧
      script.getD 0 0 = script.length - 2 then
    let pubkey := (script.drop 1).dropLast
    let h160 := ripemd160 (sha256 pubkey)
    ("P2PK", some (hash160_to_cashaddr h160 "P2PKH",
      hash160_to_legacy sha256 h160 "P2PKH"), ⟨bytesToHex pubkey⟩)
  else ("UNKNOWN", none, ⟨bytesToHex script⟩)

/-! ## Claim C6 — script classification -/

/-- Claim C6: classification is a first-match pattern priority; every
25-byte script `76 a9 14 <20 bytes> 88 ac` classifies as P2PKH with exactly
the embedded 20 bytes extracted (as the hex payload and as the hash the two
address encodings are computed from), and the 1-byte script `6a` classifies
as OP_RETURN with empty payload.  Holds for arbitrary hash primitives. -/
theorem C6_classification (sha256 ripemd160 : List Nat → List Nat)
    (h160 : List Nat) (hlen : h160.length = 20) :
    parse_script_pubkey sha256 ripemd160 ([0x76, 0xa9, 0x14] ++ h160 ++ [0x88, 0xac]) =
      ("P2PKH", some (hash160_to_cashaddr h160 "P2PKH",
        hash160_to_legacy sha256 h160 "P2PKH"), ⟨bytesToHex h160⟩) ∧
    parse_script_pubkey sha256 ripemd160 [0x6a] = ("OP_RETURN", none, "") := by
  constructor
  · have hshape : [0x76, 0xa9, 0x14] ++ h160 ++ [0x88, 0xac] =
        0x76 :: 0xa9 :: 0x14 :: (h160 ++ [0x88, 0xac]) := by simp
    have hlen25 : ([0x76, 0xa9, 0x14] ++ h160 ++ [0x88, 0xac]).length = 25 := by
      simp [hlen]
    have htake : ([0x76, 0xa9, 0x14] ++ h160 ++ [0x88, 0xac]).take 3 =
        [0x76, 0xa9, 0x14] := by
      rw [hshape]
      rfl
    have hdrop23 : ([0x76, 0xa9, 0x14] ++ h160 ++ [0x88, 0xac]).drop 23 =
        [0x88, 0xac] := by
      rw [hshape]
      show (h160 ++ [0x88, 0xac]).drop 20 = [0x88, 0xac]
      rw [← hlen, List.drop_left]
    have hext : ((([0x76, 0xa9, 0x14] ++ h160 ++ [0x88, 0xac]).drop 3).take 20) =
        h160 := by
      rw [hshape]
      show (h160 ++ [0x88, 0xac]).take 20 = h160
      rw [← hlen, List.take_left]
    unfold parse_script_pubkey
    rw [if_neg (by rw [hshape]; simp), if_pos ⟨hlen25, htake, hdrop23⟩, hext]
  · rfl

/-- Witness for `C6_classification` at the 20-byte hash `11 11 … 11` and
trivial hash primitives. -/
theorem C6_classification_witness :
    (List.replicate 20 0x11).length = 20 ∧
    parse_script_pubkey (fun _ => []) (fun _ => [])
      ([0x76, 0xa9, 0x14] ++ List.replicate 20 0x11 ++ [0x88, 0xac]) =
      ("P2PKH", some (hash160_to_cashaddr (List.replicate 20 0x11) "P2PKH",
        hash160_to_legacy (fun _ => []) (List.replicate 20 0x11) "P2PKH"),
        ⟨bytesToHex (List.replicate 20 0x11)⟩) ∧
    parse_script_pubkey (fun _ => []) (fun _ => []) [0x6a] = ("OP_RETURN", none, "") :=
  ⟨by decide,
    (C6_classification (fun _ => []) (fun _ => []) (List.replicate 20 0x11) (by decide)).1,
    (C6_classification (fun _ => []) (fun _ => []) (List.replicate 20 0x11) (by decide)).2⟩

/-! ## Claim C7 — CashAddr checksum and encoder, against the spec's wording -/

/-- The five fixed 40-bit generator constants, as the spec lists them. -/
def CASHADDR_GENERATORS : List Nat :=
  [0x98f2bc8e61, 0x79b76d99e2, 0xf33e5fb3c4, 0xae2eabe2a8, 0x1e4f43e470]

/-- Modelled from the spec: one step of the linear-feedback computation —
keep the low 35 bits of the 40-bit state shifted up by 5 (arithmetically
`(c mod 2^35) * 32`), fold in the 5-bit input, then xor each generator
constant whose bit is set in the top 5 bits of the state (`c / 2^35`). -/
def checksum_polymod_spec_step (c d : Nat) : Nat :=
  (List.range 5).foldl
    (fun acc i =>
      if (c / 2 ^ 35).testBit i then acc ^^^ CASHADDR_GENERATORS.getD i 0 else acc)
    (((c % 2 ^ 35) * 32) ^^^ d)

/-- Modelled from the spec: initial state 1, fold the step over the 5-bit
values, exclusive-or the final state with 1. -/
def checksum_polymod_spec (values : List Nat) : Nat :=
  (values.foldl checksum_polymod_spec_step 1) ^^^ 1

/-- Modelled from the spec (§4.1 `encode_checksummed_address`, version byte
0): expand the prefix characters to their low 5 bits with a zero separator,
concatenate with the version byte and hash re-packed to 5-bit groups, append
8 zero placeholder digits, run the polymod, compute the 8 checksum digits as
5-bit windows of the 40-bit result most significant window first
(`(pm / 2^(5*(7-i))) mod 32`), map every digit through the 32-character
alphabet, and emit `prefix:` followed by payload digits then checksum
digits. -/
def encode_checksummed_address_spec (h160 : List Nat) : String :=
  let pre := "bitcoincash"
  let payload := _convert_bits (0x00 :: h160) 8 5
  let pm := checksum_polymod_spec
    (_cashaddr_hrp_expand pre.data ++ payload ++ List.replicate 8 0)
  let checksum := (List.range 8).map (fun i => (pm / 2 ^ (5 * (7 - i))) % 32)
  ⟨pre.data ++ ':' :: ((payload ++ checksum).map (fun d => _CASHADDR_CHARSET.getD d ' '))⟩

theorem polymodStep_eq (c d : Nat) : polymodStep c d = checksum_polymod_spec_step c d := by
  have hb : ∀ (i m : Nat), m = 2 ^ i →
      (((c >>> 35) &&& m ≠ 0) ↔ (c / 2 ^ 35).testBit i) := by
    intro i m hm
    subst hm
    rw [Nat.shiftRight_eq_div_pow, Nat.and_two_pow]
    cases h : (c / 2 ^ 35).testBit i <;> simp [h]
  have hmask0 : c &&& 0x07ffffffff = c % 2 ^ 35 := Nat.and_pow_two_sub_one_eq_mod c 35
  have hmask : ((c &&& 0x07ffffffff) <<< 5) = (c % 2 ^ 35) * 32 := by
    rw [hmask0, Nat.shiftLeft_eq]
  unfold polymodStep checksum_polymod_spec_step
  rw [show List.range 5 = [0, 1, 2, 3, 4] from rfl]
  simp only [List.foldl_cons, List.foldl_nil]
  simp only [hb 0 0x01 (by norm_num), hb 1 0x02 (by norm_num), hb 2 0x04 (by norm_num),
    hb 3 0x08 (by norm_num), hb 4 0x10 (by norm_num), hmask]
  rfl

theorem cashaddr_polymod_eq (values : List Nat) :
    _cashaddr_polymod values = checksum_polymod_spec values := by
  unfold _cashaddr_polymod checksum_polymod_spec
  rw [show polymodStep = checksum_polymod_spec_step from
    funext fun c => funext fun d => polymodStep_eq c d]

theorem if_xor_lt (p : Prop) [Decidable p] (x g : Nat) (hx : x < 2 ^ 40)
    (hg : g < 2 ^ 40) : (if p then x ^^^ g else x) < 2 ^ 40 := by
  split
  · exact Nat.xor_lt_two_pow hx hg
  · exact hx

theorem polymodStep_lt (c d : Nat) (hd : d < 32) : polymodStep c d < 2 ^ 40 := by
  have hmask0 : c &&& 0x07ffffffff = c % 2 ^ 35 := Nat.and_pow_two_sub_one_eq_mod c 35
  have h1 : ((c &&& 0x07ffffffff) <<< 5) ^^^ d < 2 ^ 40 := by
    apply Nat.xor_lt_two_pow
    · rw [hmask0, Nat.shiftLeft_eq]
      have h2 := Nat.mod_lt c (show 0 < 2 ^ 35 by norm_num)
      omega
    · omega
  unfold polymodStep
  exact if_xor_lt _ _ _ (if_xor_lt _ _ _ (if_xor_lt _ _ _ (if_xor_lt _ _ _
    (if_xor_lt _ _ _ h1 (by norm_num)) (by norm_num)) (by norm_num))
    (by norm_num)) (by norm_num)

theorem polymod_lt (values : List Nat) (h : ∀ d ∈ values, d < 32) :
    _cashaddr_polymod values < 2 ^ 40 := by
  unfold _cashaddr_polymod
  have main : ∀ (l : List Nat) (c : Nat), c < 2 ^ 40 → (∀ d ∈ l, d < 32) →
      l.foldl polymodStep c < 2 ^ 40 := by
    intro l
    induction l with
    | nil =>
      intro c hc _
      exact hc
    | cons d l' ih =>
      intro c hc hl
      show l'.foldl polymodStep (polymodStep c d) < 2 ^ 40
      exact ih (polymodStep c d) (polymodStep_lt c d (hl d (by simp)))
        (fun x hx => hl x (by simp [hx]))
  exact Nat.xor_lt_two_pow (main values 1 (by norm_num) h) (by norm_num)

theorem cashaddr_encoder_eq (h160 : List Nat) :
    hash160_to_cashaddr h160 "P2PKH" = encode_checksummed_address_spec h160 := by
  unfold hash160_to_cashaddr encode_checksummed_address_spec
  dsimp only
  rw [if_pos rfl]
  have hck : (List.range 8).map (fun i =>
      (_cashaddr_polymod (_cashaddr_hrp_expand "bitcoincash".data ++
        _convert_bits (0x00 :: h160) 8 5 ++ List.replicate 8 0) >>> (5 * (7 - i))) &&& 0x1f) =
      (List.range 8).map (fun i =>
      (checksum_polymod_spec (_cashaddr_hrp_expand "bitcoincash".data ++
        _convert_bits (0x00 :: h160) 8 5 ++ List.replicate 8 0) / 2 ^ (5 * (7 - i))) % 32) :=
    List.map_eq_map_iff.mpr (fun i _ => by
      rw [cashaddr_polymod_eq, Nat.shiftRight_eq_div_pow]
      exact Nat.and_pow_two_sub_one_eq_mod _ 5)
  rw [hck]

/-- Claim C7: the checksum polymod is the linear-feedback computation the
spec describes (initial state 1, low-35-bits shift with 5-bit input fold,
five generator constants conditioned on the top 5 bits of state, final xor
with 1) — stated as agreement with `checksum_polymod_spec`, the computation
transcribed from the spec's words — the state is genuinely 40-bit on 5-bit
inputs, and the checksummed address encoder extracts its 8 checksum digits
as 5-bit windows of the 40-bit result most significant first and emits
prefix, ':', payload digits, then checksum digits through the fixed
32-character alphabet (agreement with `encode_checksummed_address_spec`). -/
theorem C7_checksum :
    (∀ values : List Nat, _cashaddr_polymod values = checksum_polymod_spec values) ∧
    (∀ values : List Nat, (∀ d ∈ values, d < 32) → _cashaddr_polymod values < 2 ^ 40) ∧
    (∀ h160 : List Nat, hash160_to_cashaddr h160 "P2PKH" =
      encode_checksummed_address_spec h160) :=
  ⟨cashaddr_polymod_eq, polymod_lt, cashaddr_encoder_eq⟩

/-- Witness for `C7_checksum` at the 5-bit digits `[0, 1, 2]` and the
all-zero 20-byte hash. -/
theorem C7_checksum_witness :
    (∀ d ∈ ([0, 1, 2] : List Nat), d < 32) ∧ _cashaddr_polymod [0, 1, 2] < 2 ^ 40 ∧
    hash160_to_cashaddr (List.replicate 20 0) "P2PKH" =
      encode_checksummed_address_spec (List.replicate 20 0) :=
  ⟨by decide, C7_checksum.2.1 [0, 1, 2] (by decide),
    C7_checksum.2.2 (List.replicate 20 0)⟩

/-! ## Transaction decoder: `CoinbaseTxParser` (source lines 154–212)

A parser takes the remaining byte suffix (see the cursor convention in the
header) and returns the value read and the new suffix, or `none` when the
Python code would raise. -/

def Parser (α : Type) : Type := List Nat → Option (α × List Nat)

/-- `_read(n)`: `chunk = self._data[self._pos:self._pos + n]; self._pos += n`.
No length check — the chunk is silently short near the end of the buffer,
and the cursor still advances by `n` (a cursor past the end leaves the empty
suffix). -/
def readBytes (n : Nat) (l : List Nat) : List Nat × List Nat := (l.take n, l.drop n)

/-- `struct.unpack('<…', self._read(w))`: fails (`struct.error`) unless the
chunk returned by `_read(w)` has exactly `w` bytes, i.e. unless `w` bytes
remain. -/
def unpackLE (w : Nat) : Parser Nat := fun l =>
  if w ≤ l.length then some (leNat (l.take w), l.drop w) else none

/-- Reinterpret an unsigned 32-bit value as `struct.unpack('<i', …)` does. -/
def toSigned32 (u : Nat) : Int := if u < 2 ^ 31 then (u : Int) else (u : Int) - 2 ^ 32

/-- `_i32`. -/
def readI32 : Parser Int := fun l =>
  match unpackLE 4 l with
  | none => none
  | some (u, l') => some (toSigned32 u, l')

/-- `_varint`: `n = self._data[self._pos]` (raising `IndexError` at or past
the end), then the 1-, 2-, 4- or 8-byte form. -/
def readVarint : Parser Nat := fun l =>
  match l with
  | [] => none
  | n :: rest =>
    if n < 0xfd then some (n, rest)
    else if n = 0xfd then unpackLE 2 rest
    else if n = 0xfe then unpackLE 4 rest
    else unpackLE 8 rest

structure TxInput where
  prev_hash : List Char
  prev_index : Nat
  scriptSig : List Nat
  sequence : Nat
deriving DecidableEq

structure TxOutput where
  value : Nat
  scriptPubKey : List Nat
deriving DecidableEq

structure Tx where
  version : Int
  inputs : List TxInput
  outputs : List TxOutput
  locktime : Nat
deriving DecidableEq

/-- One iteration of the input loop of `parse`: 32-byte previous hash
(stored as its hex rendering, as the source does), `_u32` previous index,
varint script length, script bytes, `_u32` sequence. -/
def parseInput : Parser TxInput := fun l =>
  let hb := (readBytes 32 l).1
  let l1 := (readBytes 32 l).2
  match unpackLE 4 l1 with
  | none => none
  | some (idx, l2) =>
    match readVarint l2 with
    | none => none
    | some (slen, l3) =>
      let sb := (readBytes slen l3).1
      let l4 := (readBytes slen l3).2
      match unpackLE 4 l4 with
      | none => none
      | some (seq, l5) =>
        some (⟨bytesToHex hb, idx, sb, seq⟩, l5)

/-- One iteration of the output loop of `parse`: `_u64` value, varint script
length, script bytes. -/
def parseOutput : Parser TxOutput := fun l =>
  match unpackLE 8 l with
  | none => none
  | some (value, l1) =>
    match readVarint l1 with
    | none => none
    | some (slen, l2) =>
      let sb := (readBytes slen l2).1
      let l3 := (readBytes slen l2).2
      some (⟨value, sb⟩, l3)

/-- `for _ in range(count)` over a parser. -/
def replicateP {α : Type} : Nat → Parser α → Parser (List α)
  | 0, _ => fun l => some ([], l)
  | n + 1, p => fun l =>
    match p l with
    | none => none
    | some (a, l1) =>
      match replicateP n p l1 with
      | none => none
      | some (as, l2) => some (a :: as, l2)

/-- `CoinbaseTxParser.parse`: `_i32` version, varint input count, the input
loop, varint output count, the output loop, `_u32` locktime.  Returns the
transaction and the unconsumed suffix (the source ignores trailing bytes). -/
def parseTxAux : Parser Tx := fun l =>
  match readI32 l with
  | none => none
  | some (version, l1) =>
    match readVarint l1 with
    | none => none
    | some (inCount, l2) =>
      match replicateP inCount parseInput l2 with
      | none => none
      | some (ins, l3) =>
        match readVarint l3 with
        | none => none
        | some (outCount, l4) =>
          match replicateP outCount parseOutput l4 with
          | none => none
          | some (outs, l5) =>
            match unpackLE 4 l5 with
            | none => none
            | some (lt, l6) => some (⟨version, ins, outs, lt⟩, l6)

/-- `CoinbaseTxParser(hex).parse()` at the byte level. -/
def CoinbaseTxParser.parse (data : List Nat) : Option Tx :=
  (parseTxAux data).map Prod.fst

/-- `CoinbaseTxParser(hex_str).parse()`: the constructor's
`bytes.fromhex`, then the byte-level parse. -/
def CoinbaseTxParser.parseHex (hex_str : List Char) : Option Tx :=
  (hexToBytes? hex_str).bind CoinbaseTxParser.parse

/-! ## The serialization the decoder inverts

Modelled from the spec: the repository has no serializer; §4.4 fixes the
format (little-endian fixed-width integers, the varint forms, the field
order), and "re-serializing" in §3/§8 refers to the canonical encoder of
that format. -/

/-- Modelled from the spec: canonical varint encoding — one byte for 0–252,
`fd`/`fe`/`ff` plus a little-endian 16/32/64-bit integer otherwise. -/
def varintEnc (n : Nat) : List Nat :=
  if n < 0xfd then [n]
  else if n < 0x10000 then 0xfd :: encodeLE 2 n
  else if n < 0x100000000 then 0xfe :: encodeLE 4 n
  else 0xff :: encodeLE 8 n

/-- Modelled from the spec: a 32-bit signed value as 4 little-endian
two's-complement bytes. -/
def encI32 (v : Int) : List Nat := encodeLE 4 (v % (2 ^ 32 : Int)).toNat

/-- Modelled from the spec: one input — 32-byte previous transaction id (the
record stores its hex rendering), 32-bit previous index, varint-prefixed
unlock script, 32-bit sequence. -/
def serializeInput (i : TxInput) : List Nat :=
  ((hexToBytes? i.prev_hash).getD []) ++ encodeLE 4 i.prev_index ++
    varintEnc i.scriptSig.length ++ i.scriptSig ++ encodeLE 4 i.sequence

/-- Modelled from the spec: one output — 64-bit value and varint-prefixed
script. -/
def serializeOutput (o : TxOutput) : List Nat :=
  encodeLE 8 o.value ++ varintEnc o.scriptPubKey.length ++ o.scriptPubKey

/-- Modelled from the spec: version, varint input count, inputs, varint
output count, outputs, 32-bit locktime. -/
def serializeTx (tx : Tx) : List Nat :=
  encI32 tx.version ++ varintEnc tx.inputs.length ++
    (tx.inputs.map serializeInput).flatten ++ varintEnc tx.outputs.length ++
    (tx.outputs.map serializeOutput).flatten ++ encodeLE 4 tx.locktime

/-- Well-formedness of a decoded input: the stored previous-hash hex is the
`bytes.hex()` rendering of 32 bytes (stated as a hex round-trip), and the
fixed-width fields fit their widths. -/
def wfInput (i : TxInput) : Bool :=
  ((hexToBytes? i.prev_hash).getD []).length = 32 &&
    bytesToHex ((hexToBytes? i.prev_hash).getD []) = i.prev_hash &&
    i.prev_index < 2 ^ 32 && i.sequence < 2 ^ 32 && i.scriptSig.length < 2 ^ 64

def wfOutput (o : TxOutput) : Bool :=
  o.value < 2 ^ 64 && o.scriptPubKey.length < 2 ^ 64

/-- Well-formedness of a transaction record: every field fits the width the
format stores it in. -/
def wfTx (tx : Tx) : Bool :=
  (-(2 ^ 31) ≤ tx.version && tx.version < 2 ^ 31) && tx.inputs.length < 2 ^ 64 &&
    tx.outputs.length < 2 ^ 64 && tx.inputs.all wfInput && tx.outputs.all wfOutput &&
    tx.locktime < 2 ^ 32

/-! ## The explicitly-bounds-checked parser the spec describes

Modelled from the spec: "Fails (truncation error) if the cursor would read
past the end of the buffer — this must be checked explicitly."  The only
unchecked reads of the source are the two `_read` chunk reads (previous
hash and script bytes); the fixed-width and varint reads fail on truncation
already.  The checked parser guards every read. -/

/-- Modelled from the spec: a chunk read that fails instead of silently
returning fewer bytes. -/
def readBytesChecked (n : Nat) : Parser (List Nat) := fun l =>
  if n ≤ l.length then some (l.take n, l.drop n) else none

def parseInputChecked : Parser TxInput := fun l =>
  match readBytesChecked 32 l with
  | none => none
  | some (hb, l1) =>
    match unpackLE 4 l1 with
    | none => none
    | some (idx, l2) =>
      match readVarint l2 with
      | none => none
      | some (slen, l3) =>
        match readBytesChecked slen l3 with
        | none => none
        | some (sb, l4) =>
          match unpackLE 4 l4 with
          | none => none
          | some (seq, l5) =>
            some (⟨bytesToHex hb, idx, sb, seq⟩, l5)

def parseOutputChecked : Parser TxOutput := fun l =>
  match unpackLE 8 l with
  | none => none
  | some (value, l1) =>
    match readVarint l1 with
    | none => none
    | some (slen, l2) =>
      match readBytesChecked slen l2 with
      | none => none
      | some (sb, l3) => some (⟨value, sb⟩, l3)

def parseTxCheckedAux : Parser Tx := fun l =>
  match readI32 l with
  | none => none
  | some (version, l1) =>
    match readVarint l1 with
    | none => none
    | some (inCount, l2) =>
      match replicateP inCount parseInputChecked l2 with
      | none => none
      | some (ins, l3) =>
        match readVarint l3 with
        | none => none
        | some (outCount, l4) =>
          match replicateP outCount parseOutputChecked l4 with
          | none => none
          | some (outs, l5) =>
            match unpackLE 4 l5 with
            | none => none
            | some (lt, l6) => some (⟨version, ins, outs, lt⟩, l6)

/-- Modelled from the spec: the decoder with explicit truncation checks. -/
def CoinbaseTxParser.parseChecked (data : List Nat) : Option Tx :=
  (parseTxCheckedAux data).map Prod.fst

/-! ## Claim C2 — truncation behaviour

The faithful parser and the explicitly-checked parser agree on every input:
although `_read` does not check bounds, a silently-short chunk leaves the
cursor past the end of the buffer, and every such read is followed by a
fixed-width read (`prev_index`, `sequence`, the next output's value, or the
final locktime) whose `struct.unpack` then fails. -/

theorem parseInput_eq_checked (l : List Nat) : parseInput l = parseInputChecked l := by
  unfold parseInput parseInputChecked readBytes readBytesChecked
  by_cases h32 : 32 ≤ l.length
  · rw [if_pos h32]
    dsimp only
    cases h4 : unpackLE 4 (l.drop 32) with
    | none => rfl
    | some r2 =>
      obtain ⟨idx, l2⟩ := r2
      dsimp only
      cases hv : readVarint l2 with
      | none => rfl
      | some r3 =>
        obtain ⟨slen, l3⟩ := r3
        dsimp only
        by_cases hs : slen ≤ l3.length
        · rw [if_pos hs]
        · rw [if_neg hs]
          have hnil : l3.drop slen = [] := List.drop_eq_nil_of_le (by omega)
          rw [hnil]
          rfl
  · rw [if_neg h32]
    have hnil : l.drop 32 = [] := List.drop_eq_nil_of_le (by omega)
    rw [hnil]
    rfl

theorem replicateP_congr {α : Type} (p q : Parser α) (h : ∀ l, p l = q l) :
    ∀ (n : Nat) (l : List Nat), replicateP n p l = replicateP n q l := by
  intro n
  induction n with
  | zero => intro l; rfl
  | succ m ih =>
    intro l
    unfold replicateP
    rw [h l]
    cases q l with
    | none => rfl
    | some r =>
      obtain ⟨a, l1⟩ := r
      dsimp only
      rw [ih l1]

theorem outsLock_eq {β : Type} (n : Nat) :
    ∀ (k : List TxOutput → Nat → List Nat → Option β) (l : List Nat),
      (match replicateP n parseOutput l with
       | none => none
       | some (outs, l5) =>
         match unpackLE 4 l5 with
         | none => none
         | some (lt, l6) => k outs lt l6) =
      (match replicateP n parseOutputChecked l with
       | none => none
       | some (outs, l5) =>
         match unpackLE 4 l5 with
         | none => none
         | some (lt, l6) => k outs lt l6) := by
  induction n with
  | zero => intro k l; rfl
  | succ m ih =>
    intro k l
    unfold replicateP
    cases h8 : unpackLE 8 l with
    | none =>
      have hfo : parseOutput l = none := by
        unfold parseOutput
        rw [h8]
      have hco : parseOutputChecked l = none := by
        unfold parseOutputChecked
        rw [h8]
      rw [hfo, hco]
    | some r =>
      obtain ⟨value, l1⟩ := r
      cases hv : readVarint l1 with
      | none =>
        have hfo : parseOutput l = none := by
          unfold parseOutput
          rw [h8]
          dsimp only
          rw [hv]
        have hco : parseOutputChecked l = none := by
          unfold parseOutputChecked
          rw [h8]
          dsimp only
          rw [hv]
        rw [hfo, hco]
      | some r2 =>
        obtain ⟨slen, l2⟩ := r2
        by_cases hs : slen ≤ l2.length
        · have hfo : parseOutput l = some (⟨value, l2.take slen⟩, l2.drop slen) := by
            unfold parseOutput readBytes
            rw [h8]
            dsimp only
            rw [hv]
          have hco : parseOutputChecked l = some (⟨value, l2.take slen⟩, l2.drop slen) := by
            unfold parseOutputChecked readBytesChecked
            rw [h8]
            dsimp only
            rw [hv]
            dsimp only
            rw [if_pos hs]
          rw [hfo, hco]
          dsimp only
          have hih := ih (fun outs lt l6 => k (⟨value, l2.take slen⟩ :: outs) lt l6)
            (l2.drop slen)
          cases hA : replicateP m parseOutput (l2.drop slen) with
          | none =>
            rw [hA] at hih
            cases hB : replicateP m parseOutputChecked (l2.drop slen) with
            | none => rfl
            | some rB =>
              obtain ⟨outsB, l5B⟩ := rB
              rw [hB] at hih
              dsimp only at hih ⊢
              exact hih
          | some rA =>
            obtain ⟨outsA, l5A⟩ := rA
            rw [hA] at hih
            cases hB : replicateP m parseOutputChecked (l2.drop slen) with
            | none =>
              rw [hB] at hih
              dsimp only at hih ⊢
              exact hih
            | some rB =>
              obtain ⟨outsB, l5B⟩ := rB
              rw [hB] at hih
              dsimp only at hih ⊢
              exact hih
        · have hnil : l2.drop slen = [] := List.drop_eq_nil_of_le (by omega)
          have hfo : parseOutput l = some (⟨value, l2.take slen⟩, []) := by
            unfold parseOutput readBytes
            rw [h8]
            dsimp only
            rw [hv]
            dsimp only
            rw [hnil]
          have hco : parseOutputChecked l = none := by
            unfold parseOutputChecked readBytesChecked
            rw [h8]
            dsimp only
            rw [hv]
            dsimp only
            rw [if_neg hs]
          rw [hfo, hco]
          dsimp only
          cases m with
          | zero => rfl
          | succ m' => rfl

/-- Claim C2: the transaction parser agrees with its explicitly
bounds-checked refinement on every byte sequence — whenever the cursor
would read past the end of the buffer, `parse` fails, and it never returns
a transaction record built from fewer bytes than the declared field lengths
require. -/
theorem C2_truncation :
    ∀ bs : List Nat, CoinbaseTxParser.parse bs = CoinbaseTxParser.parseChecked bs := by
  intro bs
  unfold CoinbaseTxParser.parse CoinbaseTxParser.parseChecked
  congr 1
  unfold parseTxAux parseTxCheckedAux
  cases hi : readI32 bs with
  | none => rfl
  | some r =>
    obtain ⟨version, l1⟩ := r
    dsimp only
    cases hv : readVarint l1 with
    | none => rfl
    | some r2 =>
      obtain ⟨inCount, l2⟩ := r2
      dsimp only
      rw [replicateP_congr parseInput parseInputChecked parseInput_eq_checked inCount l2]
      cases hr : replicateP inCount parseInputChecked l2 with
      | none => rfl
      | some r3 =>
        obtain ⟨ins, l3⟩ := r3
        dsimp only
        cases hv2 : readVarint l3 with
        | none => rfl
        | some r4 =>
          obtain ⟨outCount, l4⟩ := r4
          dsimp only
          exact outsLock_eq outCount
            (fun outs lt l6 => some ((⟨version, ins, outs, lt⟩ : Tx), l6)) l4

/-! ## Claim C1 — decode/serialize round trip -/

theorem length_encodeLE : ∀ (w n : Nat), (encodeLE w n).length = w := by
  intro w
  induction w with
  | zero => intro n; rfl
  | succ w' ih =>
    intro n
    show (encodeLE (w' + 1) n).length = w' + 1
    unfold encodeLE
    simp [ih]

theorem leNat_encodeLE : ∀ (w n : Nat), n < 2 ^ (8 * w) → leNat (encodeLE w n) = n := by
  intro w
  induction w with
  | zero =>
    intro n h
    simp at h
    simp [h, encodeLE, leNat]
  | succ w' ih =>
    intro n h
    unfold encodeLE leNat
    rw [ih (n / 256) (by
      rw [show 8 * (w' + 1) = 8 * w' + 8 by ring, pow_add] at h
      norm_num at h
      omega)]
    omega

theorem unpackLE_encodeLE (w n : Nat) (rest : List Nat) (h : n < 2 ^ (8 * w)) :
    unpackLE w (encodeLE w n ++ rest) = some (n, rest) := by
  have hlen := length_encodeLE w n
  unfold unpackLE
  rw [if_pos (by simp [hlen])]
  rw [List.take_left' hlen, List.drop_left' hlen, leNat_encodeLE w n h]

theorem readI32_encI32 (v : Int) (rest : List Nat) (h1 : -(2 ^ 31) ≤ v)
    (h2 : v < 2 ^ 31) : readI32 (encI32 v ++ rest) = some (v, rest) := by
  unfold readI32 encI32
  have hnn : 0 ≤ v % (2 ^ 32 : Int) := Int.emod_nonneg v (by norm_num)
  have hlt : v % (2 ^ 32 : Int) < 2 ^ 32 := Int.emod_lt_of_pos v (by norm_num)
  have hcast : ((v % (2 ^ 32 : Int)).toNat : Int) = v % 2 ^ 32 := Int.toNat_of_nonneg hnn
  rw [unpackLE_encodeLE 4 (v % (2 ^ 32 : Int)).toNat rest (by omega)]
  have hts : toSigned32 (v % (2 ^ 32 : Int)).toNat = v := by
    unfold toSigned32
    split <;> omega
  dsimp only
  rw [hts]

theorem readVarint_varintEnc (n : Nat) (rest : List Nat) (h : n < 2 ^ 64) :
    readVarint (varintEnc n ++ rest) = some (n, rest) := by
  unfold varintEnc
  by_cases h1 : n < 0xfd
  · rw [if_pos h1]
    show readVarint (n :: rest) = some (n, rest)
    unfold readVarint
    dsimp only
    rw [if_pos h1]
  · rw [if_neg h1]
    by_cases h2 : n < 0x10000
    · rw [if_pos h2]
      show readVarint (0xfd :: (encodeLE 2 n ++ rest)) = some (n, rest)
      unfold readVarint
      dsimp only
      rw [if_neg (by norm_num), if_pos rfl]
      exact unpackLE_encodeLE 2 n rest (by norm_num; omega)
    · rw [if_neg h2]
      by_cases h3 : n < 0x100000000
      · rw [if_pos h3]
        show readVarint (0xfe :: (encodeLE 4 n ++ rest)) = some (n, rest)
        unfold readVarint
        dsimp only
        rw [if_neg (by norm_num), if_neg (by norm_num), if_pos rfl]
        exact unpackLE_encodeLE 4 n rest (by norm_num; omega)
      · rw [if_neg h3]
        show readVarint (0xff :: (encodeLE 8 n ++ rest)) = some (n, rest)
        unfold readVarint
        dsimp only
        rw [if_neg (by norm_num), if_neg (by norm_num), if_neg (by norm_num)]
        exact unpackLE_encodeLE 8 n rest (by norm_num; omega)

theorem parseInput_serializeInput (i : TxInput) (rest : List Nat)
    (h : wfInput i = true) : parseInput (serializeInput i ++ rest) = some (i, rest) := by
  simp only [wfInput, Bool.and_eq_true, decide_eq_true_eq] at h
  obtain ⟨⟨⟨⟨hbs32, hhex⟩, hidx⟩, hseq⟩, hslen⟩ := h
  unfold parseInput serializeInput readBytes
  rw [List.append_assoc, List.append_assoc, List.append_assoc, List.append_assoc]
  rw [List.take_left' hbs32, List.drop_left' hbs32]
  dsimp only
  rw [unpackLE_encodeLE 4 i.prev_index _ (by omega)]
  dsimp only
  rw [readVarint_varintEnc i.scriptSig.length _ hslen]
  dsimp only
  rw [List.take_left, List.drop_left]
  rw [unpackLE_encodeLE 4 i.sequence rest (by omega)]
  dsimp only
  rw [hhex]

theorem parseOutput_serializeOutput (o : TxOutput) (rest : List Nat)
    (h : wfOutput o = true) : parseOutput (serializeOutput o ++ rest) = some (o, rest) := by
  simp only [wfOutput, Bool.and_eq_true, decide_eq_true_eq] at h
  obtain ⟨hval, hslen⟩ := h
  unfold parseOutput serializeOutput readBytes
  rw [List.append_assoc, List.append_assoc]
  rw [unpackLE_encodeLE 8 o.value _ hval]
  dsimp only
  rw [readVarint_varintEnc o.scriptPubKey.length _ hslen]
  dsimp only
  rw [List.take_left, List.drop_left]

theorem replicateP_inputs : ∀ (xs : List TxInput) (rest : List Nat),
    (∀ i ∈ xs, wfInput i = true) →
    replicateP xs.length parseInput ((xs.map serializeInput).flatten ++ rest) =
      some (xs, rest) := by
  intro xs
  induction xs with
  | nil =>
    intro rest _
    rfl
  | cons x xs' ih =>
    intro rest hwf
    show replicateP (xs'.length + 1) parseInput
      (((x :: xs').map serializeInput).flatten ++ rest) = some (x :: xs', rest)
    unfold replicateP
    rw [List.map_cons, List.flatten_cons, List.append_assoc]
    rw [parseInput_serializeInput x _ (hwf x (by simp))]
    dsimp only
    rw [ih rest (fun i hi => hwf i (by simp [hi]))]

theorem replicateP_outputs : ∀ (xs : List TxOutput) (rest : List Nat),
    (∀ o ∈ xs, wfOutput o = true) →
    replicateP xs.length parseOutput ((xs.map serializeOutput).flatten ++ rest) =
      some (xs, rest) := by
  intro xs
  induction xs with
  | nil =>
    intro rest _
    rfl
  | cons x xs' ih =>
    intro rest hwf
    show replicateP (xs'.length + 1) parseOutput
      (((x :: xs').map serializeOutput).flatten ++ rest) = some (x :: xs', rest)
    unfold replicateP
    rw [List.map_cons, List.flatten_cons, List.append_assoc]
    rw [parseOutput_serializeOutput x _ (hwf x (by simp))]
    dsimp only
    rw [ih rest (fun o ho => hwf o (by simp [ho]))]

theorem parseTxAux_serializeTx (tx : Tx) (h : wfTx tx = true) :
    parseTxAux (serializeTx tx) = some (tx, []) := by
  simp only [wfTx, Bool.and_eq_true, decide_eq_true_eq] at h
  obtain ⟨⟨⟨⟨⟨hver, hinc⟩, houtc⟩, hins⟩, houts⟩, hlock⟩ := h
  rw [List.all_eq_true] at hins houts
  unfold parseTxAux serializeTx
  rw [List.append_assoc, List.append_assoc, List.append_assoc, List.append_assoc]
  rw [readI32_encI32 tx.version _ hver.1 hver.2]
  dsimp only
  rw [readVarint_varintEnc tx.inputs.length _ hinc]
  dsimp only
  rw [replicateP_inputs tx.inputs _ (fun i hi => hins i hi)]
  dsimp only
  rw [readVarint_varintEnc tx.outputs.length _ houtc]
  dsimp only
  rw [show encodeLE 4 tx.locktime = encodeLE 4 tx.locktime ++ [] from
    (List.append_nil _).symm]
  rw [replicateP_outputs tx.outputs _ (fun o ho => houts o ho)]
  dsimp only
  rw [unpackLE_encodeLE 4 tx.locktime [] (by omega)]

/-- Claim C1: for every well-formed transaction byte sequence — the
serialization of a well-formed transaction record — decoding the bytes with
the transaction parser succeeds and re-serializing the resulting record
reproduces the original byte sequence exactly. -/
theorem C1_roundtrip (bs : List Nat) (tx : Tx) (hwf : wfTx tx = true)
    (hser : serializeTx tx = bs) :
    ∃ tx2 : Tx, CoinbaseTxParser.parse bs = some tx2 ∧ serializeTx tx2 = bs := by
  refine ⟨tx, ?_, hser⟩
  rw [← hser]
  unfold CoinbaseTxParser.parse
  rw [parseTxAux_serializeTx tx hwf]
  rfl

/-- A concrete well-formed transaction exercising the 0xfd varint boundary:
its input script is 253 bytes long, so its length serializes as
`fd fd 00`. -/
def txW : Tx :=
  { version := 1,
    inputs := [⟨bytesToHex (List.replicate 32 0), 0xffffffff,
      List.replicate 253 0x51, 0xffffffff⟩],
    outputs := [⟨625000000, [0x6a]⟩],
    locktime := 0 }

/-- Witness for `C1_roundtrip` at `txW`. -/
theorem C1_roundtrip_witness :
    wfTx txW = true ∧
    ∃ tx2 : Tx, CoinbaseTxParser.parse (serializeTx txW) = some tx2 ∧
      serializeTx tx2 = serializeTx txW :=
  ⟨by decide, C1_roundtrip (serializeTx txW) txW (by decide) rfl⟩
